import Mathlib

/-!
Shallow embedding of the multi-armed-bandits notebook
(`src/Multi-armed-Bandits.ipynb`): the Bernoulli bandit environment
(`FruitSlotMachine`), the shared agent loop (`AbstractMABAlgorithm.run`),
and the four policies (`UniformExploration`, `EpsilonGreedy`, `UCB`,
`BayesianUCB` / `ThompsonSamping`).

Modelling conventions:
- Python floats are modelled as exact numbers: `ℚ` where every claim is
  field arithmetic, and an arbitrary `LinearOrderedField` parameter for
  the UCB score so the theorems can instantiate it at `ℝ` with
  `Real.sqrt` / `Real.log` for `np.sqrt` / `np.log`.
- Randomness is modelled by passing the drawn values in explicitly: a
  uniform draw `u : ℚ`, a reward stream, or a Beta-sample oracle
  `betaS : ℕ → ℚ → ℚ → ℚ` whose first argument is the position of the
  draw in the call sequence and whose remaining arguments are the shape
  parameters `np.random.beta` was called with.
- Python exceptions are modelled with `Except PyErr`.
-/

namespace MAB

/-- Python runtime errors that the notebook's code can raise:
`IndexError` from list indexing, `AssertionError` from `assert`
(the spec's `InvalidArgument` taxonomy), `TypeError` from comparing
a float with `None`. -/
inductive PyErr where
  | indexError : PyErr
  | assertionError : PyErr
  | typeError : PyErr
deriving DecidableEq, Repr

/-- Python list indexing `l[i]` for `i : ℤ`: a negative index is taken
from the end (`l[len + i]`); an index out of `[-len, len)` raises
`IndexError`. -/
def pyGet (l : List ℚ) (i : ℤ) : Except PyErr ℚ :=
  let j : ℤ := if i < 0 then (l.length : ℤ) + i else i
  if h : 0 ≤ j ∧ j.toNat < l.length then .ok (l.get ⟨j.toNat, h.2⟩)
  else .error .indexError

/-- `FruitSlotMachine.get_reward`: `if np.random.random() < self.distribution[arm_choice]: return 1 else: return 0`.
The uniform draw is passed in as `u`; the distribution list is read,
never written, so the environment state is a plain parameter. -/
def get_reward (dist : List ℚ) (u : ℚ) (arm : ℤ) : Except PyErr ℕ :=
  match pyGet dist arm with
  | .error e => .error e
  | .ok p => .ok (if u < p then 1 else 0)

/-- `np.argmax` on a list: the lowest index holding the maximal value
(numpy scans left to right and keeps the first maximum); numpy errors on
an empty array, here the empty case returns 0 and every theorem assumes
nonemptiness. -/
def npArgmax {α : Type} [LinearOrder α] : List α → ℕ
  | [] => 0
  | x :: xs => if ∀ y ∈ xs, y ≤ x then 0 else 1 + npArgmax xs

/-- `np.argmin` on a list: the lowest index holding the minimal value. -/
def npArgmin {α : Type} [LinearOrder α] : List α → ℕ
  | [] => 0
  | x :: xs => if ∀ y ∈ xs, x ≤ y then 0 else 1 + npArgmin xs

theorem npArgmax_lt_length {α : Type} [LinearOrder α] (l : List α) (hl : l ≠ []) :
    npArgmax l < l.length := by
  induction l with
  | nil => exact absurd rfl hl
  | cons x xs ih =>
    rw [npArgmax]
    split
    · simp
    · next h =>
      have hxs : xs ≠ [] := by
        rintro rfl
        exact h (by simp)
      have := ih hxs
      simp only [List.length_cons]
      omega

theorem getD_cons_one_add {α : Type} (x d : α) (xs : List α) (n : ℕ) :
    (x :: xs).getD (1 + n) d = xs.getD n d := by
  rw [Nat.add_comm, List.getD_cons_succ]

theorem npArgmax_is_max {α : Type} [LinearOrder α] (l : List α) (d : α)
    (j : ℕ) (hj : j < l.length) :
    l.getD j d ≤ l.getD (npArgmax l) d := by
  induction l generalizing j with
  | nil => simp at hj
  | cons x xs ih =>
    by_cases h : ∀ y ∈ xs, y ≤ x
    · rw [npArgmax, if_pos h]
      cases j with
      | zero => exact le_refl _
      | succ j =>
        rw [List.getD_cons_succ, List.getD_cons_zero]
        have hjlen : j < xs.length := by simpa using hj
        rw [List.getD_eq_getElem xs d hjlen]
        exact h _ (List.getElem_mem hjlen)
    · rw [npArgmax, if_neg h]
      push_neg at h
      obtain ⟨y, hy, hxy⟩ := h
      obtain ⟨k, hk, hky⟩ := List.getElem_of_mem hy
      have hxk : x < xs.getD k d := by
        rw [List.getD_eq_getElem xs d hk, hky]; exact hxy
      have hmax : xs.getD k d ≤ xs.getD (npArgmax xs) d := ih k hk
      rw [getD_cons_one_add]
      cases j with
      | zero =>
        rw [List.getD_cons_zero]
        exact le_trans (le_of_lt hxk) hmax
      | succ j =>
        rw [List.getD_cons_succ]
        exact ih j (by simpa using hj)

theorem npArgmax_first {α : Type} [LinearOrder α] (l : List α) (d : α)
    (j : ℕ) (hj : j < npArgmax l) :
    l.getD j d < l.getD (npArgmax l) d := by
  induction l generalizing j with
  | nil => simp [npArgmax] at hj
  | cons x xs ih =>
    by_cases h : ∀ y ∈ xs, y ≤ x
    · rw [npArgmax, if_pos h] at hj
      omega
    · rw [npArgmax, if_neg h] at hj ⊢
      push_neg at h
      obtain ⟨y, hy, hxy⟩ := h
      obtain ⟨k, hk, hky⟩ := List.getElem_of_mem hy
      have hxk : x < xs.getD k d := by
        rw [List.getD_eq_getElem xs d hk, hky]; exact hxy
      have hmax : xs.getD k d ≤ xs.getD (npArgmax xs) d := npArgmax_is_max xs d k hk
      rw [getD_cons_one_add]
      cases j with
      | zero =>
        rw [List.getD_cons_zero]
        exact lt_of_lt_of_le hxk hmax
      | succ j =>
        rw [List.getD_cons_succ]
        exact ih j (by omega)

theorem npArgmin_lt_length {α : Type} [LinearOrder α] (l : List α) (hl : l ≠ []) :
    npArgmin l < l.length := by
  induction l with
  | nil => exact absurd rfl hl
  | cons x xs ih =>
    rw [npArgmin]
    split
    · simp
    · next h =>
      have hxs : xs ≠ [] := by
        rintro rfl
        exact h (by simp)
      have := ih hxs
      simp only [List.length_cons]
      omega

theorem npArgmin_is_min {α : Type} [LinearOrder α] (l : List α) (d : α)
    (j : ℕ) (hj : j < l.length) :
    l.getD (npArgmin l) d ≤ l.getD j d := by
  induction l generalizing j with
  | nil => simp at hj
  | cons x xs ih =>
    by_cases h : ∀ y ∈ xs, x ≤ y
    · rw [npArgmin, if_pos h]
      cases j with
      | zero => exact le_refl _
      | succ j =>
        rw [List.getD_cons_succ, List.getD_cons_zero]
        have hjlen : j < xs.length := by simpa using hj
        rw [List.getD_eq_getElem xs d hjlen]
        exact h _ (List.getElem_mem hjlen)
    · rw [npArgmin, if_neg h]
      push_neg at h
      obtain ⟨y, hy, hxy⟩ := h
      obtain ⟨k, hk, hky⟩ := List.getElem_of_mem hy
      have hxk : xs.getD k d < x := by
        rw [List.getD_eq_getElem xs d hk, hky]; exact hxy
      have hmin : xs.getD (npArgmin xs) d ≤ xs.getD k d := ih k hk
      rw [getD_cons_one_add]
      cases j with
      | zero =>
        rw [List.getD_cons_zero]
        exact le_of_lt (lt_of_le_of_lt hmin hxk)
      | succ j =>
        rw [List.getD_cons_succ]
        exact ih j (by simpa using hj)

theorem npArgmin_first {α : Type} [LinearOrder α] (l : List α) (d : α)
    (j : ℕ) (hj : j < npArgmin l) :
    l.getD (npArgmin l) d < l.getD j d := by
  induction l generalizing j with
  | nil => simp [npArgmin] at hj
  | cons x xs ih =>
    by_cases h : ∀ y ∈ xs, x ≤ y
    · rw [npArgmin, if_pos h] at hj
      omega
    · rw [npArgmin, if_neg h] at hj ⊢
      push_neg at h
      obtain ⟨y, hy, hxy⟩ := h
      obtain ⟨k, hk, hky⟩ := List.getElem_of_mem hy
      have hxk : xs.getD k d < x := by
        rw [List.getD_eq_getElem xs d hk, hky]; exact hxy
      have hmin : xs.getD (npArgmin xs) d ≤ xs.getD k d := npArgmin_is_min xs d k hk
      rw [getD_cons_one_add]
      cases j with
      | zero =>
        rw [List.getD_cons_zero]
        exact lt_of_le_of_lt hmin hxk
      | succ j =>
        rw [List.getD_cons_succ]
        exact ih j (by omega)

/-- Python `max` on a list; the notebook only calls it on the nonempty
`self.distribution` (`best_cumulative_reward = max(self.distribution)`). -/
def pyMax : List ℚ → ℚ
  | [] => 0
  | x :: xs => xs.foldl max x

theorem le_foldl_max (ys : List ℚ) (b : ℚ) : b ≤ ys.foldl max b := by
  induction ys generalizing b with
  | nil => exact le_refl b
  | cons y ys ih => exact le_trans (le_max_left b y) (ih (max b y))

theorem mem_le_foldl_max (ys : List ℚ) (b a : ℚ) (ha : a ∈ ys) :
    a ≤ ys.foldl max b := by
  induction ys generalizing b with
  | nil => simp at ha
  | cons y ys ih =>
    rcases List.mem_cons.mp ha with rfl | h
    · exact le_trans (le_max_right b a) (le_foldl_max ys (max b a))
    · exact ih (max b y) h

theorem getD_le_pyMax (dist : List ℚ) (a : ℕ) (ha : a < dist.length) :
    dist.getD a 0 ≤ pyMax dist := by
  match dist with
  | [] => simp at ha
  | x :: xs =>
    rw [pyMax]
    cases a with
    | zero => exact le_foldl_max xs x
    | succ a =>
      rw [List.getD_cons_succ, List.getD_eq_getElem xs 0 (by simpa using ha)]
      exact mem_le_foldl_max xs x _ (List.getElem_mem (by simpa using ha))

/-- numpy in-place increment `self.N_a[arm_choice] += 1` (the run loop only
uses in-range indices; `List.set` out of range is the identity). -/
def listInc (l : List ℕ) (i : ℕ) : List ℕ := l.set i (l.getD i 0 + 1)

theorem listInc_length (l : List ℕ) (i : ℕ) : (listInc l i).length = l.length :=
  List.length_set l i _

theorem listInc_getD_self (l : List ℕ) (i : ℕ) (hi : i < l.length) :
    (listInc l i).getD i 0 = l.getD i 0 + 1 := by
  rw [listInc, List.getD_eq_getElem _ 0 (by simpa using hi)]
  simp [List.getElem_set]

theorem listInc_getD_ne (l : List ℕ) (i j : ℕ) (hij : j ≠ i) :
    (listInc l i).getD j 0 = l.getD j 0 := by
  induction l generalizing i j with
  | nil => simp [listInc]
  | cons x xs ih =>
    cases i with
    | zero =>
      cases j with
      | zero => exact absurd rfl hij
      | succ j => simp [listInc]
    | succ i =>
      cases j with
      | zero => simp [listInc]
      | succ j =>
        have hstep : listInc (x :: xs) (i + 1) = x :: listInc xs i := rfl
        rw [hstep, List.getD_cons_succ, List.getD_cons_succ]
        exact ih i j (by omega)

theorem listInc_sum (l : List ℕ) (i : ℕ) (hi : i < l.length) :
    (listInc l i).sum = l.sum + 1 := by
  induction l generalizing i with
  | nil => simp at hi
  | cons x xs ih =>
    cases i with
    | zero =>
      have hstep : listInc (x :: xs) 0 = (x + 1) :: xs := by simp [listInc]
      rw [hstep, List.sum_cons, List.sum_cons]
      omega
    | succ i =>
      have hstep : listInc (x :: xs) (i + 1) = x :: listInc xs i := rfl
      rw [hstep, List.sum_cons, List.sum_cons, ih i (by simpa using hi)]
      omega

/-- The mutable state of `AbstractMABAlgorithm` shared by every policy:
`self.N_a` (per-arm pull counts), `self.regret` (cumulative regret) and
`self.regret_history`. -/
structure AgentState where
  N_a : List ℕ
  regret : ℚ
  regret_history : List ℚ
deriving Repr, DecidableEq

/-- `AbstractMABAlgorithm.__init__`: counts all zero, regret 0,
history `[0]`. -/
def initAgent (numArms : ℕ) : AgentState :=
  ⟨List.replicate numArms 0, 0, [0]⟩

/-- `AbstractMABAlgorithm.update_regret`: `self.regret += best - distribution[arm]`,
then append the new cumulative regret to `self.regret_history`. -/
def update_regret (dist : List ℚ) (s : AgentState) (arm : ℕ) : AgentState :=
  let r := s.regret + (pyMax dist - dist.getD arm 0)
  ⟨s.N_a, r, s.regret_history ++ [r]⟩

/-- One round of `AbstractMABAlgorithm.run` projected onto the shared
state: `self.N_a[arm_choice] += 1` followed by `self.update_regret(arm_choice)`
(the policy-specific `update_belief` call between them does not touch
this state). The arm chosen by the policy in the round is passed in. -/
def stepAgent (dist : List ℚ) (s : AgentState) (arm : ℕ) : AgentState :=
  update_regret dist ⟨listInc s.N_a arm, s.regret, s.regret_history⟩ arm

/-- `AbstractMABAlgorithm.run` projected onto the shared state, with the
sequence of arms chosen by the policy across the rounds passed in as
`arms` (one entry per round, so `num_iterations = arms.length`). -/
def runAgent (dist : List ℚ) (arms : List ℕ) : AgentState :=
  arms.foldl (stepAgent dist) (initAgent dist.length)

theorem runAgent_invariants (dist : List ℚ) (arms : List ℕ)
    (ha : ∀ a ∈ arms, a < dist.length) :
    (runAgent dist arms).N_a.length = dist.length ∧
    (runAgent dist arms).N_a.sum = arms.length ∧
    (runAgent dist arms).regret_history.length = arms.length + 1 ∧
    (runAgent dist arms).regret_history.head? = some 0 ∧
    List.Chain' (fun p q => p ≤ q) (runAgent dist arms).regret_history ∧
    (runAgent dist arms).regret_history.getLast? = some (runAgent dist arms).regret ∧
    (runAgent dist arms).regret = (arms.map (fun a => pyMax dist - dist.getD a 0)).sum := by
  induction arms using List.reverseRecOn with
  | nil =>
    refine ⟨by simp [runAgent, initAgent], by simp [runAgent, initAgent], ?_, ?_, ?_, ?_, ?_⟩ <;>
      simp [runAgent, initAgent]
  | append_singleton as a ih =>
    have ha' : ∀ b ∈ as, b < dist.length := fun b hb => ha b (List.mem_append_left _ hb)
    have haa : a < dist.length := ha a (List.mem_append_right _ (List.mem_singleton.mpr rfl))
    obtain ⟨h1, h2, h3, h4, h5, h6, h7⟩ := ih ha'
    have hrun : runAgent dist (as ++ [a]) = stepAgent dist (runAgent dist as) a := by
      rw [runAgent, List.foldl_append, List.foldl_cons, List.foldl_nil]
      rfl
    set s := runAgent dist as with hs
    have hhist : (stepAgent dist s a).regret_history =
        s.regret_history ++ [s.regret + (pyMax dist - dist.getD a 0)] := rfl
    have hreg : (stepAgent dist s a).regret =
        s.regret + (pyMax dist - dist.getD a 0) := rfl
    have hna : (stepAgent dist s a).N_a = listInc s.N_a a := rfl
    have hne : s.regret_history ≠ [] := by
      intro h
      rw [h] at h3
      simp at h3
    refine ⟨?_, ?_, ?_, ?_, ?_, ?_, ?_⟩
    · rw [hrun, hna, listInc_length, h1]
    · rw [hrun, hna, listInc_sum s.N_a a (by rw [h1]; exact haa), h2]
      simp
    · rw [hrun, hhist, List.length_append, h3]
      simp
    · rw [hrun, hhist, List.head?_append_of_ne_nil _ hne]
      exact h4
    · rw [hrun, hhist]
      rw [List.chain'_append]
      refine ⟨h5, List.chain'_singleton _, ?_⟩
      intro p hp q hq
      rw [h6] at hp
      simp only [Option.mem_def, Option.some.injEq] at hp
      simp only [List.head?_cons, Option.mem_def, Option.some.injEq] at hq
      subst hp
      subst hq
      have := getD_le_pyMax dist a haa
      linarith
    · rw [hrun, hhist, hreg, List.getLast?_concat]
    · rw [hrun, hreg, h7, List.map_append, List.sum_append]
      simp

/-- C4: for every policy (any sequence of in-range chosen arms) and every
number of rounds, after the run the regret history has length n+1, starts
at 0, is non-decreasing, ends with the cumulative regret, and the
cumulative regret is the sum over rounds of
`bestProbability - trueSuccessProbability[armChosenThatRound]`. -/
theorem C4_regret_invariants (dist : List ℚ) (arms : List ℕ)
    (ha : ∀ a ∈ arms, a < dist.length) :
    (runAgent dist arms).regret_history.length = arms.length + 1 ∧
    (runAgent dist arms).regret_history.head? = some 0 ∧
    List.Chain' (fun p q => p ≤ q) (runAgent dist arms).regret_history ∧
    (runAgent dist arms).regret_history.getLast? = some (runAgent dist arms).regret ∧
    (runAgent dist arms).regret = (arms.map (fun a => pyMax dist - dist.getD a 0)).sum := by
  obtain ⟨_, _, h3, h4, h5, h6, h7⟩ := runAgent_invariants dist arms ha
  exact ⟨h3, h4, h5, h6, h7⟩

/-- Witness for C4 at the notebook's distribution `[0.3, 0.5, 0.7]` and a
concrete three-round arm trace. -/
theorem C4_regret_invariants_witness :
    (runAgent [3/10, 1/2, 7/10] [2, 0, 1]).regret_history.length = [2, 0, 1].length + 1 ∧
    (runAgent [3/10, 1/2, 7/10] [2, 0, 1]).regret_history.head? = some 0 ∧
    List.Chain' (fun p q => p ≤ q) (runAgent [3/10, 1/2, 7/10] [2, 0, 1]).regret_history ∧
    (runAgent [3/10, 1/2, 7/10] [2, 0, 1]).regret_history.getLast? =
      some (runAgent [3/10, 1/2, 7/10] [2, 0, 1]).regret ∧
    (runAgent [3/10, 1/2, 7/10] [2, 0, 1]).regret =
      ([2, 0, 1].map (fun a => pyMax [3/10, 1/2, 7/10] - [3/10, 1/2, 7/10].getD a 0)).sum :=
  C4_regret_invariants [3/10, 1/2, 7/10] [2, 0, 1] (by decide)

/-- C5: after any run the pull counts sum to the number of rounds, and a
single round increments exactly the chosen arm's count by 1 and leaves
every other entry unchanged. -/
theorem C5_pull_count_sum (dist : List ℚ) (arms : List ℕ) (s : AgentState) (arm : ℕ)
    (ha : ∀ a ∈ arms, a < dist.length) (harm : arm < s.N_a.length) :
    (runAgent dist arms).N_a.sum = arms.length ∧
    (stepAgent dist s arm).N_a.getD arm 0 = s.N_a.getD arm 0 + 1 ∧
    (∀ j, j ≠ arm → (stepAgent dist s arm).N_a.getD j 0 = s.N_a.getD j 0) := by
  refine ⟨(runAgent_invariants dist arms ha).2.1, ?_, ?_⟩
  · exact listInc_getD_self s.N_a arm harm
  · exact fun j hj => listInc_getD_ne s.N_a arm j hj

/-- Witness for C5: a three-round run on the notebook's machine, and one
concrete round incrementing arm 1 only. -/
theorem C5_pull_count_sum_witness :
    (runAgent [3/10, 1/2, 7/10] [0, 2, 2]).N_a.sum = [0, 2, 2].length ∧
    (stepAgent [3/10, 1/2, 7/10] (initAgent 3) 1).N_a.getD 1 0 =
      (initAgent 3).N_a.getD 1 0 + 1 ∧
    (stepAgent [3/10, 1/2, 7/10] (initAgent 3) 1).N_a.getD 0 0 =
      (initAgent 3).N_a.getD 0 0 := by
  obtain ⟨h1, h2, h3⟩ :=
    C5_pull_count_sum [3/10, 1/2, 7/10] [0, 2, 2] (initAgent 3) 1 (by decide) (by decide)
  exact ⟨h1, h2, h3 0 (by decide)⟩

/-- Python-side `max` on the integer array `self.N_a` (used only to state
the round-robin balance property). -/
def pyMaxN : List ℕ → ℕ
  | [] => 0
  | x :: xs => xs.foldl max x

/-- Python-side `min` on the integer array `self.N_a`. -/
def pyMinN : List ℕ → ℕ
  | [] => 0
  | x :: xs => xs.foldl min x

theorem foldl_max_le (ys : List ℕ) (b c : ℕ) (hb : b ≤ c) (hy : ∀ y ∈ ys, y ≤ c) :
    ys.foldl max b ≤ c := by
  induction ys generalizing b with
  | nil => exact hb
  | cons y ys ih =>
    exact ih (max b y) (max_le hb (hy y (List.mem_cons_self y ys)))
      (fun z hz => hy z (List.mem_cons_of_mem y hz))

theorem le_foldl_min (ys : List ℕ) (b c : ℕ) (hb : c ≤ b) (hy : ∀ y ∈ ys, c ≤ y) :
    c ≤ ys.foldl min b := by
  induction ys generalizing b with
  | nil => exact hb
  | cons y ys ih =>
    exact ih (min b y) (le_min hb (hy y (List.mem_cons_self y ys)))
      (fun z hz => hy z (List.mem_cons_of_mem y hz))

theorem pyMaxN_le (l : List ℕ) (c : ℕ) (h : ∀ y ∈ l, y ≤ c) : pyMaxN l ≤ c := by
  match l with
  | [] => exact Nat.zero_le c
  | x :: xs =>
    exact foldl_max_le xs x c (h x (List.mem_cons_self x xs))
      (fun z hz => h z (List.mem_cons_of_mem x hz))

theorem le_pyMinN (l : List ℕ) (c : ℕ) (hne : l ≠ []) (h : ∀ y ∈ l, c ≤ y) :
    c ≤ pyMinN l := by
  match l with
  | [] => exact absurd rfl hne
  | x :: xs =>
    exact le_foldl_min xs x c (h x (List.mem_cons_self x xs))
      (fun z hz => h z (List.mem_cons_of_mem x hz))

/-- `UniformExploration.choose_arm`: `np.argmin(self.N_a)`. -/
def ue_choose_arm (N_a : List ℕ) : ℕ := npArgmin N_a

/-- One round of `AbstractMABAlgorithm.run` with the `UniformExploration`
policy: `choose_arm` reads only `self.N_a`; the count of the chosen arm is
incremented and then `update_belief` applies the running-mean rule,
dividing by the post-increment count. The observed reward is passed in. -/
def ueStep (s : List ℕ × List ℚ) (reward : ℚ) : List ℕ × List ℚ :=
  let arm := ue_choose_arm s.1
  let counts := listInc s.1 arm
  let p := s.2.getD arm 0
  (counts, s.2.set arm (p + (reward - p) / ((counts.getD arm 0 : ℚ))))

/-- `UniformExploration` constructed on a machine with `numArms` arms and
initial estimate `initp`, then `run` over the given reward sequence. -/
def ueRun (numArms : ℕ) (initp : ℚ) (rewards : List ℚ) : List ℕ × List ℚ :=
  rewards.foldl ueStep (List.replicate numArms 0, List.replicate numArms initp)

/-- The pull counts take at most two adjacent values. -/
def Balanced (counts : List ℕ) : Prop :=
  ∃ m, ∀ j < counts.length, counts.getD j 0 = m ∨ counts.getD j 0 = m + 1

theorem balanced_step (counts : List ℕ) (h : Balanced counts) (hne : counts ≠ []) :
    Balanced (listInc counts (npArgmin counts)) := by
  obtain ⟨m, hm⟩ := h
  have ha : npArgmin counts < counts.length := npArgmin_lt_length counts hne
  have hlen : (listInc counts (npArgmin counts)).length = counts.length :=
    listInc_length counts _
  by_cases hex : ∃ j, j < counts.length ∧ counts.getD j 0 = m
  · refine ⟨m, fun j hj => ?_⟩
    rw [hlen] at hj
    by_cases hja : j = npArgmin counts
    · obtain ⟨k, hk, hkm⟩ := hex
      have hmin : counts.getD (npArgmin counts) 0 ≤ counts.getD k 0 :=
        npArgmin_is_min counts 0 k hk
      have hv : counts.getD (npArgmin counts) 0 = m := by
        rcases hm (npArgmin counts) ha with h' | h'
        · exact h'
        · omega
      rw [hja, listInc_getD_self counts _ ha, hv]
      exact Or.inr rfl
    · rw [listInc_getD_ne counts _ j hja]
      exact hm j hj
  · push_neg at hex
    have hall : ∀ j < counts.length, counts.getD j 0 = m + 1 := by
      intro j hj
      rcases hm j hj with h' | h'
      · exact absurd h' (hex j hj)
      · exact h'
    refine ⟨m + 1, fun j hj => ?_⟩
    rw [hlen] at hj
    by_cases hja : j = npArgmin counts
    · subst hja
      rw [listInc_getD_self counts _ hj, hall _ hj]
      exact Or.inr rfl
    · rw [listInc_getD_ne counts _ j hja]
      exact Or.inl (hall j hj)

theorem ueFold_balanced (rewards : List ℚ) (s : List ℕ × List ℚ)
    (hb : Balanced s.1) (hne : s.1 ≠ []) :
    Balanced (rewards.foldl ueStep s).1 ∧
      (rewards.foldl ueStep s).1.length = s.1.length := by
  induction rewards generalizing s with
  | nil => exact ⟨hb, rfl⟩
  | cons r rs ih =>
    rw [List.foldl_cons]
    have h1 : (ueStep s r).1 = listInc s.1 (npArgmin s.1) := rfl
    have hb' : Balanced (ueStep s r).1 := h1 ▸ balanced_step s.1 hb hne
    have hlen' : (ueStep s r).1.length = s.1.length := by rw [h1, listInc_length]
    have hne' : (ueStep s r).1 ≠ [] := by
      intro hnil
      rw [hnil] at hlen'
      exact hne (List.length_eq_zero.mp hlen'.symm)
    obtain ⟨ih1, ih2⟩ := ih (ueStep s r) hb' hne'
    exact ⟨ih1, by rw [ih2, hlen']⟩

theorem balanced_max_min (counts : List ℕ) (hne : counts ≠ [])
    (hb : Balanced counts) : pyMaxN counts - pyMinN counts ≤ 1 := by
  obtain ⟨m, hm⟩ := hb
  have hmem : ∀ y ∈ counts, y = m ∨ y = m + 1 := by
    intro y hy
    obtain ⟨k, hk, hky⟩ := List.getElem_of_mem hy
    have := hm k hk
    rw [List.getD_eq_getElem counts 0 hk, hky] at this
    exact this
  have hmax : pyMaxN counts ≤ m + 1 :=
    pyMaxN_le counts (m + 1) (fun y hy => by rcases hmem y hy with h' | h' <;> omega)
  have hmin : m ≤ pyMinN counts :=
    le_pyMinN counts m hne (fun y hy => by rcases hmem y hy with h' | h' <;> omega)
  omega

/-- C6: `UniformExploration.choose_arm` returns the lowest index among the
arms with minimal pull count (it attains the minimum and every earlier
index holds a strictly larger count), and after a run of any length the
pull counts satisfy `max(pullCount) - min(pullCount) ≤ 1`. -/
theorem C6_uniform_exploration_balance (counts : List ℕ) (numArms : ℕ)
    (initp : ℚ) (rewards : List ℚ) (hne : counts ≠ []) (hn : 0 < numArms) :
    (ue_choose_arm counts < counts.length ∧
      (∀ j < counts.length, counts.getD (ue_choose_arm counts) 0 ≤ counts.getD j 0) ∧
      (∀ j < ue_choose_arm counts, counts.getD j 0 > counts.getD (ue_choose_arm counts) 0)) ∧
    pyMaxN (ueRun numArms initp rewards).1 - pyMinN (ueRun numArms initp rewards).1 ≤ 1 := by
  constructor
  · exact ⟨npArgmin_lt_length counts hne,
      fun j hj => npArgmin_is_min counts 0 j hj,
      fun j hj => npArgmin_first counts 0 j hj⟩
  · have hinit : Balanced (List.replicate numArms (0 : ℕ)) := by
      refine ⟨0, fun j hj => Or.inl ?_⟩
      rw [List.getD_eq_getElem _ 0 (by simpa using hj)]
      simp
    have hinitne : (List.replicate numArms (0 : ℕ)) ≠ [] := by
      intro h
      have := congrArg List.length h
      simp at this
      omega
    obtain ⟨hb, hlen⟩ := ueFold_balanced rewards
      (List.replicate numArms 0, List.replicate numArms initp) hinit hinitne
    refine balanced_max_min _ ?_ hb
    intro h
    rw [ueRun] at h
    rw [h] at hlen
    simp at hlen
    omega

/-- Witness for C6 at counts `[2, 1, 1]` (arm 1 is the first minimal one)
and a four-round run on a three-armed machine. -/
theorem C6_uniform_exploration_balance_witness :
    (ue_choose_arm [2, 1, 1] < [2, 1, 1].length ∧
      ([2, 1, 1] : List ℕ).getD (ue_choose_arm [2, 1, 1]) 0 ≤ ([2, 1, 1] : List ℕ).getD 2 0 ∧
      ([2, 1, 1] : List ℕ).getD 0 0 > ([2, 1, 1] : List ℕ).getD (ue_choose_arm [2, 1, 1]) 0) ∧
    pyMaxN (ueRun 3 1 [1, 0, 1, 1]).1 - pyMinN (ueRun 3 1 [1, 0, 1, 1]).1 ≤ 1 := by
  obtain ⟨⟨h1, h2, h3⟩, h4⟩ :=
    C6_uniform_exploration_balance [2, 1, 1] 3 1 [1, 0, 1, 1] (by decide) (by decide)
  exact ⟨⟨h1, h2 2 (by decide), h3 0 (by decide)⟩, h4⟩

/-- numpy in-place addition `l[i] += v` on a float array, modelled over an
arbitrary linear ordered field. -/
def listAdd {K : Type} [LinearOrderedField K] (l : List K) (i : ℕ) (v : K) : List K :=
  l.set i (l.getD i 0 + v)

theorem listAdd_length {K : Type} [LinearOrderedField K] (l : List K) (i : ℕ) (v : K) :
    (listAdd l i v).length = l.length :=
  List.length_set l i _

theorem listAdd_getD_self {K : Type} [LinearOrderedField K] (l : List K) (i : ℕ) (v : K)
    (hi : i < l.length) :
    (listAdd l i v).getD i 0 = l.getD i 0 + v := by
  rw [listAdd, List.getD_eq_getElem _ 0 (by simpa using hi)]
  simp [List.getElem_set]

theorem listAdd_getD_ne {K : Type} [LinearOrderedField K] (l : List K) (i j : ℕ) (v : K)
    (hij : j ≠ i) :
    (listAdd l i v).getD j 0 = l.getD j 0 := by
  induction l generalizing i j with
  | nil => simp [listAdd]
  | cons x xs ih =>
    cases i with
    | zero =>
      cases j with
      | zero => exact absurd rfl hij
      | succ j => simp [listAdd]
    | succ i =>
      cases j with
      | zero => simp [listAdd]
      | succ j =>
        have hstep : listAdd (x :: xs) (i + 1) v = x :: listAdd xs i v := rfl
        rw [hstep, List.getD_cons_succ, List.getD_cons_succ]
        exact ih i j (by omega)

/-- `BayesianUCB.update_belief` and `ThompsonSamping.update_belief`
(identical code): `self.a[arm_choice] += reward; self.b[arm_choice] += 1 - reward`. -/
def update_belief_beta (a b : List ℚ) (arm : ℕ) (reward : ℚ) : List ℚ × List ℚ :=
  (listAdd a arm reward, listAdd b arm (1 - reward))

/-- One round of `AbstractMABAlgorithm.run` with a Beta-Bernoulli policy
(`BayesianUCB` or `ThompsonSamping`): the chosen arm and observed reward
are passed in; the loop increments `self.N_a[arm]` and then calls
`update_belief`. -/
def betaStep (s : List ℕ × List ℚ × List ℚ) (ar : ℕ × ℚ) : List ℕ × List ℚ × List ℚ :=
  let counts := listInc s.1 ar.1
  let ab := update_belief_beta s.2.1 s.2.2 ar.1 ar.2
  (counts, ab.1, ab.2)

/-- A Beta-Bernoulli policy constructed with `initial_a = initial_b = init_c`
(default 1) on a machine with `numArms` arms, run over the given trace of
(chosen arm, observed reward) pairs. -/
def betaRun (numArms : ℕ) (init_c : ℚ) (trace : List (ℕ × ℚ)) :
    List ℕ × List ℚ × List ℚ :=
  trace.foldl betaStep
    (List.replicate numArms 0, List.replicate numArms init_c, List.replicate numArms init_c)

theorem betaFold_invariant (numArms : ℕ) (init_c : ℚ) (trace : List (ℕ × ℚ))
    (s : List ℕ × List ℚ × List ℚ)
    (ht : ∀ p ∈ trace, p.1 < numArms)
    (h1 : s.1.length = numArms) (h2 : s.2.1.length = numArms) (h3 : s.2.2.length = numArms)
    (hinv : ∀ j, j < numArms →
      s.2.1.getD j 0 + s.2.2.getD j 0 = (s.1.getD j 0 : ℚ) + 2 * init_c) :
    (trace.foldl betaStep s).1.length = numArms ∧
    (trace.foldl betaStep s).2.1.length = numArms ∧
    (trace.foldl betaStep s).2.2.length = numArms ∧
    ∀ j, j < numArms →
      (trace.foldl betaStep s).2.1.getD j 0 + (trace.foldl betaStep s).2.2.getD j 0 =
        ((trace.foldl betaStep s).1.getD j 0 : ℚ) + 2 * init_c := by
  induction trace generalizing s with
  | nil => exact ⟨h1, h2, h3, hinv⟩
  | cons p ps ih =>
    rw [List.foldl_cons]
    have harm : p.1 < numArms := ht p (List.mem_cons_self p ps)
    have hc : (betaStep s p).1 = listInc s.1 p.1 := rfl
    have ha : (betaStep s p).2.1 = listAdd s.2.1 p.1 p.2 := rfl
    have hb : (betaStep s p).2.2 = listAdd s.2.2 p.1 (1 - p.2) := rfl
    refine ih (betaStep s p) (fun q hq => ht q (List.mem_cons_of_mem p hq))
      (by rw [hc, listInc_length, h1]) (by rw [ha, listAdd_length, h2])
      (by rw [hb, listAdd_length, h3]) ?_
    intro j hj
    by_cases hja : j = p.1
    · rw [hja, hc, ha, hb,
        listInc_getD_self s.1 p.1 (by rw [h1]; exact harm),
        listAdd_getD_self s.2.1 p.1 p.2 (by rw [h2]; exact harm),
        listAdd_getD_self s.2.2 p.1 (1 - p.2) (by rw [h3]; exact harm)]
      have hinvp := hinv p.1 (hja ▸ hj)
      push_cast
      push_cast at hinvp
      linarith
    · rw [hc, ha, hb, listInc_getD_ne s.1 p.1 j hja,
        listAdd_getD_ne s.2.1 p.1 j p.2 hja, listAdd_getD_ne s.2.2 p.1 j (1 - p.2) hja]
      exact hinv j hj

/-- C7: with reward in `{0,1}`, `update_belief` increments exactly one of
the chosen arm's (successCount, failureCount) pair by 1 and leaves the
other one and every other arm untouched; consequently after every round
`successCount[a] + failureCount[a] = pullCount[a] + 2 * initial_count`
for every arm. -/
theorem C7_beta_conjugate_invariant (numArms : ℕ) (init_c : ℚ) (trace : List (ℕ × ℚ))
    (a b : List ℚ) (arm : ℕ) (r : ℚ)
    (ht : ∀ p ∈ trace, p.1 < numArms)
    (harm1 : arm < a.length) (harm2 : arm < b.length) (hr : r = 0 ∨ r = 1) :
    (((update_belief_beta a b arm r).1.getD arm 0 = a.getD arm 0 + 1 ∧
        (update_belief_beta a b arm r).2.getD arm 0 = b.getD arm 0) ∨
      ((update_belief_beta a b arm r).1.getD arm 0 = a.getD arm 0 ∧
        (update_belief_beta a b arm r).2.getD arm 0 = b.getD arm 0 + 1)) ∧
    (∀ j, j ≠ arm → (update_belief_beta a b arm r).1.getD j 0 = a.getD j 0 ∧
        (update_belief_beta a b arm r).2.getD j 0 = b.getD j 0) ∧
    (∀ j, j < numArms →
      (betaRun numArms init_c trace).2.1.getD j 0 +
          (betaRun numArms init_c trace).2.2.getD j 0 =
        ((betaRun numArms init_c trace).1.getD j 0 : ℚ) + 2 * init_c) := by
  refine ⟨?_, ?_, ?_⟩
  · have h1 : (update_belief_beta a b arm r).1.getD arm 0 = a.getD arm 0 + r :=
      listAdd_getD_self a arm r harm1
    have h2 : (update_belief_beta a b arm r).2.getD arm 0 = b.getD arm 0 + (1 - r) :=
      listAdd_getD_self b arm (1 - r) harm2
    rcases hr with rfl | rfl
    · right
      constructor
      · rw [h1]; ring
      · rw [h2]; ring
    · left
      constructor
      · rw [h1]
      · rw [h2]; ring
  · intro j hj
    exact ⟨listAdd_getD_ne a arm j r hj, listAdd_getD_ne b arm j (1 - r) hj⟩
  · have := betaFold_invariant numArms init_c trace
      (List.replicate numArms 0, List.replicate numArms init_c, List.replicate numArms init_c)
      ht (by simp) (by simp) (by simp) ?_
    · exact this.2.2.2
    · intro j hj
      have e1 : (List.replicate numArms init_c).getD j 0 = init_c := by
        rw [List.getD_eq_getElem _ 0 (by simpa using hj)]
        simp
      have e2 : (List.replicate numArms (0 : ℕ)).getD j 0 = 0 := by
        rw [List.getD_eq_getElem _ 0 (by simpa using hj)]
        simp
      show (List.replicate numArms init_c).getD j 0 + (List.replicate numArms init_c).getD j 0 =
        ((List.replicate numArms (0 : ℕ)).getD j 0 : ℚ) + 2 * init_c
      rw [e1, e2]
      push_cast
      ring

/-- Witness for C7: one Bayesian update at arm 0 with reward 1 on a fresh
three-armed belief state, and a two-round run. -/
theorem C7_beta_conjugate_invariant_witness :
    (((update_belief_beta [1, 1, 1] [1, 1, 1] 0 1).1.getD 0 0 =
          ([1, 1, 1] : List ℚ).getD 0 0 + 1 ∧
        (update_belief_beta [1, 1, 1] [1, 1, 1] 0 1).2.getD 0 0 =
          ([1, 1, 1] : List ℚ).getD 0 0) ∨
      ((update_belief_beta [1, 1, 1] [1, 1, 1] 0 1).1.getD 0 0 =
          ([1, 1, 1] : List ℚ).getD 0 0 ∧
        (update_belief_beta [1, 1, 1] [1, 1, 1] 0 1).2.getD 0 0 =
          ([1, 1, 1] : List ℚ).getD 0 0 + 1)) ∧
    ((update_belief_beta [1, 1, 1] [1, 1, 1] 0 1).1.getD 2 0 =
        ([1, 1, 1] : List ℚ).getD 2 0 ∧
      (update_belief_beta [1, 1, 1] [1, 1, 1] 0 1).2.getD 2 0 =
        ([1, 1, 1] : List ℚ).getD 2 0) ∧
    ((betaRun 3 1 [(0, 1), (2, 0)]).2.1.getD 1 0 +
        (betaRun 3 1 [(0, 1), (2, 0)]).2.2.getD 1 0 =
      ((betaRun 3 1 [(0, 1), (2, 0)]).1.getD 1 0 : ℚ) + 2 * 1) := by
  obtain ⟨h1, h2, h3⟩ :=
    C7_beta_conjugate_invariant 3 1 [(0, 1), (2, 0)] [1, 1, 1] [1, 1, 1] 0 1
      (by decide) (by decide) (by decide) (by decide)
  exact ⟨h1, h2 2 (by decide), h3 1 (by decide)⟩

/-- The running-mean `update_belief` shared verbatim by
`UniformExploration`, `EpsilonGreedy` and `UCB`:
`self.probabilities[arm_choice] += (reward - self.probabilities[arm_choice]) / (self.N_a[arm_choice])`.
`N_a` is the count array as it stands when `update_belief` is called. -/
def update_belief_mean {K : Type} [LinearOrderedField K] (probs : List K)
    (N_a : List ℕ) (arm : ℕ) (reward : K) : List K :=
  listAdd probs arm ((reward - probs.getD arm 0) / (N_a.getD arm 0 : K))

/-- One round of `AbstractMABAlgorithm.run` with a running-mean policy
(the chosen arm and the observed reward are passed in): the loop first
executes `self.N_a[arm_choice] += 1` and only then calls `update_belief`,
so the division is by the post-increment count. -/
def rmStep {K : Type} [LinearOrderedField K] (s : List ℕ × List K) (ar : ℕ × K) :
    List ℕ × List K :=
  let counts := listInc s.1 ar.1
  (counts, update_belief_mean s.2 counts ar.1 ar.2)

/-- A running-mean policy with initial estimate `initp` on a machine with
`numArms` arms, run over the given (chosen arm, reward) trace. -/
def rmRun {K : Type} [LinearOrderedField K] (numArms : ℕ) (initp : K)
    (trace : List (ℕ × K)) : List ℕ × List K :=
  trace.foldl rmStep (List.replicate numArms 0, List.replicate numArms initp)

/-- The denominator `self.N_a[arm_choice]` that `update_belief` divides by
when the loop body runs from state `s` with chosen arm `arm` (i.e. the
count after the loop's increment). -/
def rmDivisor {K : Type} [LinearOrderedField K] (s : List ℕ × List K) (arm : ℕ) : ℕ :=
  (listInc s.1 arm).getD arm 0

theorem rmFold_counts_length {K : Type} [LinearOrderedField K]
    (trace : List (ℕ × K)) (s : List ℕ × List K) :
    (trace.foldl rmStep s).1.length = s.1.length := by
  induction trace generalizing s with
  | nil => rfl
  | cons p ps ih =>
    rw [List.foldl_cons, ih]
    exact listInc_length s.1 p.1

theorem rmFold_probs_length {K : Type} [LinearOrderedField K]
    (trace : List (ℕ × K)) (s : List ℕ × List K) :
    (trace.foldl rmStep s).2.length = s.2.length := by
  induction trace generalizing s with
  | nil => rfl
  | cons p ps ih =>
    rw [List.foldl_cons, ih]
    exact listAdd_length s.2 p.1 _

/-- C9: in every round of a run of any running-mean policy, the count the
belief update divides by is the just-incremented count of the chosen arm,
hence strictly positive: no division by zero is reachable. -/
theorem C9_running_mean_divisor_positive (numArms : ℕ) (initp : ℚ)
    (trace : List (ℕ × ℚ)) (i : ℕ)
    (ht : ∀ p ∈ trace, p.1 < numArms) (hi : i < trace.length) :
    rmDivisor (rmRun numArms initp (trace.take i)) (trace.getD i (0, 0)).1 =
      (rmRun numArms initp (trace.take i)).1.getD (trace.getD i (0, 0)).1 0 + 1 ∧
    0 < rmDivisor (rmRun numArms initp (trace.take i)) (trace.getD i (0, 0)).1 := by
  have harm : (trace.getD i (0, 0)).1 < numArms := by
    have hmem : trace.getD i (0, 0) ∈ trace := by
      rw [List.getD_eq_getElem _ _ hi]
      exact List.getElem_mem hi
    exact ht _ hmem
  have hlen : (rmRun numArms initp (trace.take i)).1.length = numArms := by
    rw [rmRun, rmFold_counts_length]
    simp
  have hself := listInc_getD_self (rmRun numArms initp (trace.take i)).1
    (trace.getD i (0, 0)).1 (by rw [hlen]; exact harm)
  exact ⟨hself, by rw [rmDivisor, hself]; omega⟩

/-- Witness for C9: round 1 of a two-round trace on the notebook's
three-armed machine. -/
theorem C9_running_mean_divisor_positive_witness :
    rmDivisor (rmRun 3 1 (([(2, 1), (2, 0)] : List (ℕ × ℚ)).take 1)) (([(2, 1), (2, 0)] :
        List (ℕ × ℚ)).getD 1 (0, 0)).1 =
      (rmRun 3 1 (([(2, 1), (2, 0)] : List (ℕ × ℚ)).take 1)).1.getD (([(2, 1), (2, 0)] :
        List (ℕ × ℚ)).getD 1 (0, 0)).1 0 + 1 ∧
    0 < rmDivisor (rmRun 3 1 (([(2, 1), (2, 0)] : List (ℕ × ℚ)).take 1)) (([(2, 1), (2, 0)] :
        List (ℕ × ℚ)).getD 1 (0, 0)).1 :=
  C9_running_mean_divisor_positive 3 1 [(2, 1), (2, 0)] 1 (by decide) (by decide)

/-- The per-arm UCB score computed by `UCB.choose_arm`:
`self.probabilities + np.sqrt(2 * np.log(t) / (self.N_a + 1))` at index
`a`, with `t = self.iteration + 1` (the 1-indexed round about to be
played). `sq` and `lg` are the `np.sqrt` / `np.log` primitives, supplied
so the definition stays parametric over the number field. -/
def ucbScore {K : Type} [LinearOrderedField K] (sq lg : K → K) (t : ℕ)
    (probs : List K) (N_a : List ℕ) (a : ℕ) : K :=
  probs.getD a 0 + sq (2 * lg (t : K) / ((N_a.getD a 0 : K) + 1))

/-- `UCB.choose_arm`: `np.argmax` of the elementwise score array (one
entry per arm; `self.probabilities` has length `num_arms`). -/
def ucb_choose_arm {K : Type} [LinearOrderedField K] (sq lg : K → K) (t : ℕ)
    (probs : List K) (N_a : List ℕ) : ℕ :=
  npArgmax ((List.range probs.length).map (ucbScore sq lg t probs N_a))

theorem getD_map_range {K : Type} (f : ℕ → K) (n j : ℕ) (hj : j < n) (d : K) :
    ((List.range n).map f).getD j d = f j := by
  rw [List.getD_eq_getElem _ d (by simpa using hj), List.getElem_map, List.getElem_range]

theorem rmFold_untouched_initial {K : Type} [LinearOrderedField K] (numArms : ℕ)
    (initp : K) (trace : List (ℕ × K)) (s : List ℕ × List K)
    (h1 : s.1.length = numArms) (h2 : s.2.length = numArms)
    (hinit : ∀ j, j < numArms → s.1.getD j 0 = 0 → s.2.getD j 0 = initp) :
    ∀ j, j < numArms → (trace.foldl rmStep s).1.getD j 0 = 0 →
      (trace.foldl rmStep s).2.getD j 0 = initp := by
  induction trace generalizing s with
  | nil => exact hinit
  | cons p ps ih =>
    rw [List.foldl_cons]
    have hc : (rmStep s p).1 = listInc s.1 p.1 := rfl
    have hp : (rmStep s p).2 = update_belief_mean s.2 (listInc s.1 p.1) p.1 p.2 := rfl
    refine ih (rmStep s p) (by rw [hc, listInc_length, h1])
      (by rw [hp, update_belief_mean, listAdd_length, h2]) ?_
    intro j hj hcount
    by_cases hja : j = p.1
    · by_cases hrange : p.1 < s.1.length
      · rw [hja, hc, listInc_getD_self s.1 p.1 hrange] at hcount
        omega
      · rw [hja, hc] at hcount
        have hnoop : listInc s.1 p.1 = s.1 := by
          rw [listInc]
          exact List.set_eq_of_length_le (by omega)
        rw [hp, update_belief_mean, hja]
        have hprange : ¬ p.1 < s.2.length := by rw [h2]; rw [h1] at hrange; exact hrange
        have hnoop2 : ∀ v : K, listAdd s.2 p.1 v = s.2 := by
          intro v
          rw [listAdd]
          exact List.set_eq_of_length_le (by omega)
        rw [hnoop2]
        rw [hnoop] at hcount
        exact hja ▸ hinit j hj (hja ▸ hcount)
    · rw [hc, listInc_getD_ne s.1 p.1 j hja] at hcount
      rw [hp, update_belief_mean, listAdd_getD_ne s.2 p.1 j _ hja]
      exact hinit j hj hcount

/-- C3: `UCB.choose_arm` at 1-indexed round `t` returns the lowest index
attaining the maximal score `estimate[a] + sqrt(2*ln(t)/(pullCount[a]+1))`,
and in a run any arm whose pull count is still 0 has kept its initial
estimate, so its score is exactly `initial_estimate + sqrt(2*ln(t)/1)`. -/
theorem C3_ucb_choose_arm (t : ℕ) (probs : List ℝ) (N_a : List ℕ)
    (numArms : ℕ) (initp : ℝ) (trace : List (ℕ × ℝ)) (a : ℕ)
    (hne : probs ≠ [])
    (harms : ∀ p ∈ trace, p.1 < numArms) (ha : a < numArms)
    (hzero : (rmRun numArms initp trace).1.getD a 0 = 0) :
    (ucb_choose_arm Real.sqrt Real.log t probs N_a < probs.length ∧
      (∀ j, j < probs.length →
        ucbScore Real.sqrt Real.log t probs N_a j ≤
          ucbScore Real.sqrt Real.log t probs N_a
            (ucb_choose_arm Real.sqrt Real.log t probs N_a)) ∧
      (∀ j, j < ucb_choose_arm Real.sqrt Real.log t probs N_a →
        ucbScore Real.sqrt Real.log t probs N_a j <
          ucbScore Real.sqrt Real.log t probs N_a
            (ucb_choose_arm Real.sqrt Real.log t probs N_a))) ∧
    ucbScore Real.sqrt Real.log t (rmRun numArms initp trace).2
        (rmRun numArms initp trace).1 a =
      initp + Real.sqrt (2 * Real.log (t : ℝ) / 1) := by
  constructor
  · have hmapne : ((List.range probs.length).map
        (ucbScore Real.sqrt Real.log t probs N_a)) ≠ [] := by
      intro h
      have := congrArg List.length h
      simp at this
      exact hne this
    have hmaplen : ((List.range probs.length).map
        (ucbScore Real.sqrt Real.log t probs N_a)).length = probs.length := by
      simp
    have hfold : npArgmax ((List.range probs.length).map
        (ucbScore Real.sqrt Real.log t probs N_a)) =
        ucb_choose_arm Real.sqrt Real.log t probs N_a := rfl
    have harg : ucb_choose_arm Real.sqrt Real.log t probs N_a < probs.length := by
      rw [← hfold]
      have := npArgmax_lt_length _ hmapne
      rw [hmaplen] at this
      exact this
    refine ⟨harg, ?_, ?_⟩
    · intro j hj
      have := npArgmax_is_max ((List.range probs.length).map
        (ucbScore Real.sqrt Real.log t probs N_a)) 0 j (by rw [hmaplen]; exact hj)
      rw [hfold, getD_map_range _ _ j hj, getD_map_range _ _ _ harg] at this
      exact this
    · intro j hj
      have hjlen : j < probs.length := lt_trans hj harg
      have := npArgmax_first ((List.range probs.length).map
        (ucbScore Real.sqrt Real.log t probs N_a)) 0 j (by rw [hfold]; exact hj)
      rw [hfold, getD_map_range _ _ j hjlen, getD_map_range _ _ _ harg] at this
      exact this
  · have hprobs : (rmRun numArms initp trace).2.getD a 0 = initp := by
      refine rmFold_untouched_initial numArms initp trace
        (List.replicate numArms 0, List.replicate numArms initp)
        (by simp) (by simp) ?_ a ha hzero
      intro j hj _
      rw [List.getD_eq_getElem _ 0 (by simpa using hj)]
      simp
    rw [ucbScore, hprobs, hzero]
    norm_num

/-- Witness for C3 at `t = 1`, a single never-pulled arm with initial
estimate 1 and an empty run. -/
theorem C3_ucb_choose_arm_witness :
    (ucb_choose_arm Real.sqrt Real.log 1 [(1 : ℝ)] [0] < [(1 : ℝ)].length ∧
      ucbScore Real.sqrt Real.log 1 [(1 : ℝ)] [0] 0 ≤
        ucbScore Real.sqrt Real.log 1 [(1 : ℝ)] [0]
          (ucb_choose_arm Real.sqrt Real.log 1 [(1 : ℝ)] [0])) ∧
    ucbScore Real.sqrt Real.log 1 (rmRun 1 (1 : ℝ) []).2 (rmRun 1 (1 : ℝ) []).1 0 =
      1 + Real.sqrt (2 * Real.log ((1 : ℕ) : ℝ) / 1) := by
  obtain ⟨⟨h1, h2, _⟩, h4⟩ :=
    C3_ucb_choose_arm 1 [(1 : ℝ)] [0] 1 1 [] 0 (by simp) (by simp) (by decide) (by rfl)
  exact ⟨⟨h1, h2 0 (by simp)⟩, h4⟩

/-- The belief state of `EpsilonGreedy`: the stored `self.epsilon`
(`None` is representable, hence `Option`) and `self.probabilities`. -/
structure EGState where
  epsilon : Option ℚ
  probabilities : List ℚ
deriving Repr, DecidableEq

/-- `EpsilonGreedy.__init__`: runs
`assert epsilon is None or 0 <= epsilon <= 1.0` before storing the
parameter and initializing `self.probabilities`; a failed `assert`
raises at construction time (the spec's `InvalidArgument`). -/
def epsilonGreedyInit (numArms : ℕ) (epsilon : Option ℚ) (initp : ℚ) :
    Except PyErr EGState :=
  match epsilon with
  | none => .ok ⟨none, List.replicate numArms initp⟩
  | some e =>
    if 0 ≤ e ∧ e ≤ 1 then .ok ⟨some e, List.replicate numArms initp⟩
    else .error .assertionError

/-- `EpsilonGreedy.choose_arm`: `if np.random.random() < self.epsilon:`
explore a uniformly drawn arm (`randArm`), else exploit
`self.probabilities.argmax()`. In Python 3 the comparison
`float < None` raises `TypeError`, so a `None` epsilon makes the method
fail. -/
def eg_choose_arm (s : EGState) (u : ℚ) (randArm : ℕ) : Except PyErr ℕ :=
  match s.epsilon with
  | none => .error .typeError
  | some e => .ok (if u < e then randArm else npArgmax s.probabilities)

/-- C8: the Epsilon-Greedy constructor fails (failed `assert` at
construction time) for every numeric epsilon outside `[0, 1]` and
succeeds for every epsilon inside `[0, 1]`. -/
theorem C8_epsilon_greedy_constructor_check (numArms : ℕ) (initp e : ℚ) :
    (¬ (0 ≤ e ∧ e ≤ 1) →
      epsilonGreedyInit numArms (some e) initp = .error .assertionError) ∧
    ((0 ≤ e ∧ e ≤ 1) →
      epsilonGreedyInit numArms (some e) initp =
        .ok ⟨some e, List.replicate numArms initp⟩) := by
  constructor
  · intro h
    rw [epsilonGreedyInit]
    simp only [if_neg h]
  · intro h
    rw [epsilonGreedyInit]
    simp only [if_pos h]

/-- Witness for C8: `epsilon = 2` is rejected, `epsilon = 1/2` accepted. -/
theorem C8_epsilon_greedy_constructor_check_witness :
    epsilonGreedyInit 3 (some 2) 1 = .error .assertionError ∧
    epsilonGreedyInit 3 (some (1/2)) 1 =
      .ok ⟨some (1/2), List.replicate 3 1⟩ :=
  ⟨(C8_epsilon_greedy_constructor_check 3 1 2).1 (by norm_num),
   (C8_epsilon_greedy_constructor_check 3 1 (1/2)).2 (by norm_num)⟩

/-- C10: the constructor's check explicitly admits `epsilon = None`
(the `assert` succeeds), even though `choose_arm` then fails on the
`float < None` comparison. -/
theorem C10_epsilon_none_accepted (numArms : ℕ) (initp : ℚ) :
    epsilonGreedyInit numArms none initp =
      .ok ⟨none, List.replicate numArms initp⟩ ∧
    ∀ (probs : List ℚ) (u : ℚ) (randArm : ℕ),
      eg_choose_arm ⟨none, probs⟩ u randArm = .error .typeError := by
  exact ⟨rfl, fun _ _ _ => rfl⟩

theorem pyGet_out_of_range (l : List ℚ) (i : ℤ)
    (h : (l.length : ℤ) ≤ i ∨ i < -(l.length : ℤ)) :
    pyGet l i = .error .indexError := by
  rcases h with h | h
  · have hi : ¬ i < 0 := by omega
    simp only [pyGet, if_neg hi]
    rw [dif_neg]
    intro hc
    omega
  · have hi : i < 0 := by omega
    simp only [pyGet, if_pos hi]
    rw [dif_neg]
    intro hc
    omega

theorem pyGet_in_range (l : List ℚ) (i : ℤ) (h1 : 0 ≤ i) (h2 : i < (l.length : ℤ)) :
    pyGet l i = .ok (l.getD i.toNat 0) := by
  have hi : ¬ i < 0 := by omega
  have hcond : 0 ≤ i ∧ i.toNat < l.length := ⟨h1, by omega⟩
  simp only [pyGet, if_neg hi]
  rw [dif_pos hcond]
  rw [List.getD_eq_getElem l 0 hcond.2]
  rfl

theorem pyGet_neg_wraps (l : List ℚ) (i : ℤ)
    (h1 : -(l.length : ℤ) ≤ i) (h2 : i < 0) :
    pyGet l i = .ok (l.getD (l.length - (-i).toNat) 0) := by
  have hcond : 0 ≤ (l.length : ℤ) + i ∧ ((l.length : ℤ) + i).toNat < l.length :=
    ⟨by omega, by omega⟩
  simp only [pyGet, if_pos h2]
  rw [dif_pos hcond]
  have hidx : ((l.length : ℤ) + i).toNat = l.length - (-i).toNat := by omega
  rw [← hidx, List.getD_eq_getElem l 0 hcond.2]
  rfl

/-- C2 counterexample: on the notebook's machine `[0.3, 0.5, 0.7]` the
out-of-range call `get_reward(-1)` does not fail at all — `get_reward`
performs no range check and Python's negative indexing silently wraps to
the last arm (probability 0.7), so a draw of 0.5 wins. -/
theorem C2_counterexample_negative_index :
    get_reward [3/10, 1/2, 7/10] (1/2) (-1) = .ok 1 := by
  have h := pyGet_neg_wraps [3/10, 1/2, 7/10] (-1) (by norm_num) (by norm_num)
  rw [get_reward, h]
  norm_num

/-- C2 amended: `get_reward` validates nothing. An index at or above
`numArms` or below `-numArms` raises `IndexError` (not a constructed
`InvalidArgument`); an index in `[0, numArms)` returns 1 iff the uniform
draw is below that arm's probability; an index in `[-numArms, 0)`
silently succeeds using arm `numArms + armIndex`; every successful
result is 0 or 1, and the environment state is never mutated
(`get_reward` is a pure function of the distribution and of the draw). -/
theorem C2_reward_range_behavior (dist : List ℚ) (u : ℚ) (arm : ℤ) :
    (((dist.length : ℤ) ≤ arm ∨ arm < -(dist.length : ℤ)) →
      get_reward dist u arm = .error .indexError) ∧
    (0 ≤ arm → arm < (dist.length : ℤ) →
      get_reward dist u arm = .ok (if u < dist.getD arm.toNat 0 then 1 else 0)) ∧
    (-(dist.length : ℤ) ≤ arm → arm < 0 →
      get_reward dist u arm =
        .ok (if u < dist.getD (dist.length - (-arm).toNat) 0 then 1 else 0)) ∧
    (∀ r : ℕ, get_reward dist u arm = .ok r → r = 0 ∨ r = 1) := by
  refine ⟨?_, ?_, ?_, ?_⟩
  · intro h
    rw [get_reward, pyGet_out_of_range dist arm h]
  · intro h1 h2
    rw [get_reward, pyGet_in_range dist arm h1 h2]
  · intro h1 h2
    rw [get_reward, pyGet_neg_wraps dist arm h1 h2]
  · intro r hr
    rw [get_reward] at hr
    cases hpg : pyGet dist arm with
    | error e => rw [hpg] at hr; exact absurd hr (by simp)
    | ok p =>
      rw [hpg] at hr
      simp only [Except.ok.injEq] at hr
      by_cases hu : u < p
      · rw [if_pos hu] at hr
        omega
      · rw [if_neg hu] at hr
        omega

/-- Witness for C2 amended: in-range arm 2 with draw 1/2 yields reward 1;
arm 3 raises IndexError; arm -3 wraps to arm 0 and yields reward 0. -/
theorem C2_reward_range_behavior_witness :
    get_reward [3/10, 1/2, 7/10] (1/2) 2 =
      .ok (if (1/2 : ℚ) < ([3/10, 1/2, 7/10] : List ℚ).getD ((2 : ℤ)).toNat 0
        then 1 else 0) ∧
    get_reward [3/10, 1/2, 7/10] (1/2) 3 = .error .indexError ∧
    get_reward [3/10, 1/2, 7/10] (1/2) (-3) =
      .ok (if (1/2 : ℚ) < ([3/10, 1/2, 7/10] : List ℚ).getD
        (([3/10, 1/2, 7/10] : List ℚ).length - ((-(-3) : ℤ)).toNat) 0
        then 1 else 0) :=
  ⟨(C2_reward_range_behavior [3/10, 1/2, 7/10] (1/2) 2).2.1 (by norm_num) (by norm_num),
   (C2_reward_range_behavior [3/10, 1/2, 7/10] (1/2) 3).1 (by norm_num),
   (C2_reward_range_behavior [3/10, 1/2, 7/10] (1/2) (-3)).2.2.1 (by norm_num) (by norm_num)⟩

/-- `ThompsonSamping.choose_arm`, iteration `i` of its loop: the code
computes `samples[i] = np.random.beta(self.a, self.b).sum()`; since
`self.a` and `self.b` are the full per-arm arrays, numpy broadcasts and
returns one Beta(a[j], b[j]) draw for EVERY arm `j`, and `.sum()` adds
them all up. `betaS k al be` is the value of the `k`-th Beta draw of the
call sequence, drawn with shape parameters `(al, be)`; iteration `i`
consumes draws `i*numArms .. i*numArms + numArms - 1`. -/
def ts_sample (numArms : ℕ) (a b : List ℚ) (betaS : ℕ → ℚ → ℚ → ℚ) (i : ℕ) : ℚ :=
  ((List.range numArms).map
    (fun j => betaS (i * numArms + j) (a.getD j 0) (b.getD j 0))).sum

/-- `ThompsonSamping.choose_arm`: `np.argmax(samples)` over the
`num_arms` entries produced by `ts_sample`. -/
def ts_choose_arm (numArms : ℕ) (a b : List ℚ) (betaS : ℕ → ℚ → ℚ → ℚ) : ℕ :=
  npArgmax ((List.range numArms).map (ts_sample numArms a b betaS))

/-- C1 refutation: the claim says arm 0's sample depends only on arm 0's
belief pair. Take two belief states that agree at arm 0 — pairs
`(1, 1)` in both — and differ only at arm 2 (`(1, 1)` vs `(5, 1)`).
With the Beta oracle that returns its first shape parameter (a legitimate
choice of random values), arm 0's sample evaluates to 3 in one state and
7 in the other, and each sample consumes one draw per arm: the code sums
a draw from every arm's posterior instead of sampling arm 0's alone. -/
theorem C1_thompson_sample_uses_all_arms :
    ts_sample 3 [1, 1, 1] [1, 1, 1] (fun _ al _ => al) 0 = 3 ∧
    ts_sample 3 [1, 1, 5] [1, 1, 1] (fun _ al _ => al) 0 = 7 ∧
    ([1, 1, 1] : List ℚ).getD 0 0 = ([1, 1, 5] : List ℚ).getD 0 0 ∧
    ([1, 1, 1] : List ℚ).getD 0 0 = ([1, 1, 1] : List ℚ).getD 0 0 := by
  refine ⟨?_, ?_, ?_, rfl⟩ <;> norm_num [ts_sample, List.range_succ]

end MAB
